import Mathlib

/-!
# imgconv: validation, directory walk and transcoding

A shallow embedding of `kadai1/imkaito/imgconv/imgconv.go`.

* Go strings are modelled as lists of Unicode code points (`Str`).
* The standard-library helpers the package calls (`strings.ToLower`,
  `strings.TrimLeft`, `strings.TrimSuffix`, `filepath.Ext`) are written out
  after their Go implementations, for the Unix path separator `/` and for
  strings that are valid UTF-8.
* The Unicode case table, `filepath.Clean`, `os.Stat`, the image codecs and the
  order in which `filepath.Walk` calls its callback are parameters.
* The filesystem is explicit state (`World`) threaded through the callback;
  several paths may name one file, and a write through one of them is seen
  through all of them.
-/

namespace Imgconv

/-- A Go string, as its sequence of code points. -/
abbrev Str := List Char

/-- File contents. -/
abbrev Bytes := List Nat

/-! ## Standard-library helpers -/

/-- Go `unicode.ToLower`: ASCII letters are shifted by 32, other ASCII runes are
kept, and runes above ASCII go through the Unicode case table `ul`. -/
def lowerRune (ul : Char → Char) (c : Char) : Char :=
  if c.toNat < 128 then
    if 65 ≤ c.toNat ∧ c.toNat ≤ 90 then Char.ofNat (c.toNat + 32) else c
  else ul c

/-- Go `strings.ToLower`: every rune mapped through `unicode.ToLower`. -/
def ToLower (ul : Char → Char) (s : Str) : Str :=
  s.map (lowerRune ul)

/-- Go `strings.TrimLeft(s, cutset)`: drop the leading runes contained in `cutset`. -/
def TrimLeft (s cutset : Str) : Str :=
  s.dropWhile (fun c => decide (c ∈ cutset))

/-- Go `strings.TrimSuffix(s, suffix)`: `s` without the trailing `suffix`, if it
ends with it. -/
def TrimSuffix (s suffix : Str) : Str :=
  if suffix.isSuffixOf s then s.take (s.length - suffix.length) else s

/-- The loop of `filepath.Ext`, run over the path read backwards: `rest` holds
the runes not yet inspected (last rune of the path first) and `seen` the runes
already passed over, in path order. -/
def Ext.scan : Str → Str → Str
  | [], _ => []
  | c :: rest, seen =>
    if c = '/' then []
    else if c = '.' then c :: seen
    else Ext.scan rest (c :: seen)

/-- Go `filepath.Ext`: the suffix beginning at the final dot of the final path
element, empty if there is no dot. -/
def Ext (path : Str) : Str :=
  Ext.scan path.reverse []

/-! ## The package -/

/-- The keys of the package-level `supported` map. -/
def supported : List Str :=
  [['j', 'p', 'g'], ['j', 'p', 'e', 'g'], ['p', 'n', 'g'], ['g', 'i', 'f']]

/-- The function `normalizedExt` of the source. -/
def normalizedExt (ul : Char → Char) (path_or_ext : Str) : Str :=
  let ext := TrimLeft (Ext path_or_ext) ['.']
  let ext := if ext = [] then path_or_ext else ext
  let ext := ToLower ul ext
  if ext = ['j', 'p', 'e', 'g'] ∨ ext = ['j', 'p', 'g'] then ['j', 'p', 'g'] else ext

/-- The errors the package returns, one constructor per `return` site. -/
inductive Error where
  /-- Message `"%s does not exist: %w"`. -/
  | notExist (src : Str)
  /-- Message `"%s failed to get information: %w"`. -/
  | statFailed (src : Str)
  /-- Message `"%s must be directory"`. -/
  | notDirectory (src : Str)
  /-- Message `"unsupported format %s"`. -/
  | unsupported (fromExt : Str)
  /-- Message `"%s should be different from %s"`. -/
  | sameFormat (fromExt toExt : Str)
  /-- The error `filepath.Walk` hands to the callback. -/
  | traversal (path : Str)
  /-- Message `"failed to open %s: %v"`. -/
  | openFailed (path : Str)
  /-- Message `"failed to write to %s: %v"`. -/
  | createFailed (dest : Str)
  /-- The error of `image.Decode`. -/
  | decode
  /-- The error of one of the three encoders. -/
  | encode
  /-- Message `"unkown format %s"`. -/
  | unknownFormat (toExt : Str)
  deriving DecidableEq

/-- What `os.Stat` reports for a path. -/
inductive StatResult where
  /-- An error for which `os.IsNotExist` holds. -/
  | notExist
  /-- Any other error. -/
  | failed
  /-- Success, and `info.IsDir()` is false. -/
  | file
  /-- Success, and `info.IsDir()` is true. -/
  | dir
  deriving DecidableEq

/-- The `Converter` struct. -/
structure Converter where
  Directory : Str
  FromExt : Str
  ToExt : Str
  deriving DecidableEq

/-- The function `validate` of the source; `none` is the nil error. `clean` is
`filepath.Clean` and `stat` is `os.Stat`. -/
def validate (ul : Char → Char) (clean : Str → Str) (stat : Str → StatResult)
    (directory fromExt toExt : Str) : Option Error :=
  let src := clean directory
  match stat src with
  | .notExist => some (.notExist src)
  | .failed => some (.statFailed src)
  | .file => some (.notDirectory src)
  | .dir =>
    if fromExt ∉ supported then some (.unsupported fromExt)
    else if normalizedExt ul fromExt = normalizedExt ul toExt then
      some (.sameFormat fromExt toExt)
    else none

/-- The function `New` of the source: the lower-cased formats are validated, the formats as
given are stored. -/
def New (ul : Char → Char) (clean : Str → Str) (stat : Str → StatResult)
    (directory fromExt toExt : Str) : Except Error Converter :=
  match validate ul clean stat directory (ToLower ul fromExt) (ToLower ul toExt) with
  | some err => .error err
  | none => .ok ⟨directory, fromExt, toExt⟩

/-- What an encoder did: the bytes it wrote and whether it returned nil. -/
structure Encoded where
  written : Bytes
  ok : Bool

/-- The image library: `image.Decode`, `jpeg.Encode`, `png.Encode` and
`gif.Encode` over an image type left abstract. -/
structure Codec (Image : Type) where
  decode : Bytes → Option Image
  jpegEncode : Image → Encoded
  pngEncode : Image → Encoded
  gifEncode : Image → Encoded

/-- The error an encoder call returns, with the bytes that reached the writer. -/
def Encoded.result (e : Encoded) : Option Error × Option Bytes :=
  (if e.ok then none else some .encode, some e.written)

/-- The method `Converter.convert`: `r` is what the reader yields; the result is the
returned error and, if an encoder was called, the bytes written to the writer. -/
def Converter.convert {Image : Type} (cd : Codec Image) (c : Converter) (r : Bytes) :
    Option Error × Option Bytes :=
  match cd.decode r with
  | none => (some .decode, none)
  | some img =>
    if c.ToExt = ['j', 'p', 'g'] ∨ c.ToExt = ['j', 'p', 'e', 'g'] then (cd.jpegEncode img).result
    else if c.ToExt = ['p', 'n', 'g'] then (cd.pngEncode img).result
    else if c.ToExt = ['g', 'i', 'f'] then (cd.gifEncode img).result
    else (some (.unknownFormat c.ToExt), none)

/-- A filesystem operation that took effect. -/
inductive Op where
  | opened (path : Str)
  | created (path : Str)
  | wrote (path : Str) (data : Bytes)
  deriving DecidableEq

/-- The filesystem. Several paths can name one file (hard links, symbolic
links): `resolve` sends a path to the name under which its file is kept, and
two paths name the same file exactly when they resolve alike. `files` holds the
contents of the files that exist, by resolved name. The rest is the paths on
which `os.Open` and `os.Create` fail for other reasons, and the operations
performed so far. -/
structure World where
  resolve : Str → Str
  files : Str → Option Bytes
  openFails : Str → Bool
  createFails : Str → Bool
  log : List Op

/-- What a path holds: the contents of the file it names, if that exists. -/
def contents (w : World) (path : Str) : Option Bytes :=
  w.files (w.resolve path)

/-- Go `os.Open`: fails on a missing or unreadable file. -/
def osOpen (w : World) (path : Str) : Option World :=
  if w.openFails path = true ∨ contents w path = none then none
  else some { w with log := w.log ++ [.opened path] }

/-- Go `os.Create`: creates the file the path names, or truncates it if it
exists. -/
def osCreate (w : World) (path : Str) : Option World :=
  if w.createFails path = true then none
  else some { w with
    files := fun k => if k = w.resolve path then some [] else w.files k
    log := w.log ++ [.created path] }

/-- The reader's view of an open file: its current contents. -/
def readAll (w : World) (path : Str) : Bytes :=
  (contents w path).getD []

/-- The effect of the writes an encoder made on the file created at `path`. -/
def writeAll (w : World) (path : Str) : Option Bytes → World
  | none => w
  | some data => { w with
    files := fun k => if k = w.resolve path then some data else w.files k
    log := w.log ++ [.wrote path data] }

/-- One call `filepath.Walk` makes to its callback. -/
inductive Entry where
  /-- The call carries an error (`err != nil`). -/
  | failed (path : Str)
  /-- The entry is a directory: `info.IsDir()` is true. -/
  | dir (path : Str)
  /-- Any other entry. -/
  | file (path : Str)
  deriving DecidableEq

/-- The output path of line 80:
`strings.TrimSuffix(path, filepath.Ext(path)) + "." + c.ToExt`. -/
def Converter.dest (c : Converter) (path : Str) : Str :=
  TrimSuffix path (Ext path) ++ ['.'] ++ c.ToExt

/-- The callback `Converter.Walk` passes to `filepath.Walk`. -/
def Converter.walkFn {Image : Type} (ul : Char → Char) (cd : Codec Image) (c : Converter) :
    Entry → World → Option Error × World
  | .failed path, w => (some (.traversal path), w)
  | .dir _, w => (none, w)
  | .file path, w =>
    if normalizedExt ul path ≠ c.FromExt then (none, w)
    else
      match osOpen w path with
      | none => (some (.openFailed path), w)
      | some w1 =>
        match osCreate w1 (c.dest path) with
        | none => (some (.createFailed (c.dest path)), w1)
        | some w2 =>
          let res := c.convert cd (readAll w2 path)
          (res.1, writeAll w2 (c.dest path) res.2)

/-- Go `filepath.Walk` over the calls it makes, in order: the first non-nil error
returned by the callback ends the walk and is returned. -/
def Converter.walkEntries {Image : Type} (ul : Char → Char) (cd : Codec Image)
    (c : Converter) : List Entry → World → Option Error × World
  | [], w => (none, w)
  | e :: es, w =>
    match c.walkFn ul cd e w with
    | (some err, w1) => (some err, w1)
    | (none, w1) => Converter.walkEntries ul cd c es w1

/-- The method `Converter.Walk`: `traverse root` is the sequence of callback calls
`filepath.Walk` makes for `root`. -/
def Converter.Walk {Image : Type} (ul : Char → Char) (cd : Codec Image)
    (traverse : Str → List Entry) (c : Converter) (w : World) : Option Error × World :=
  c.walkEntries ul cd (traverse c.Directory) w

/-! ## Fixtures for the worked examples -/

/-- A small image library: a file is a format tag (1 JPEG, 2 PNG, 3 GIF)
followed by the pixel data, and the image is the pixel data. -/
def tagCodec : Codec Bytes where
  decode
    | t :: px => if t = 1 ∨ t = 2 ∨ t = 3 then some px else none
    | [] => none
  jpegEncode px := ⟨1 :: px, true⟩
  pngEncode px := ⟨2 :: px, true⟩
  gifEncode px := ⟨3 :: px, true⟩

/-- A filesystem holding exactly the listed files, without links, all readable
and writable. -/
def worldOf (fs : List (Str × Bytes)) : World where
  resolve p := p
  files p := (fs.lookup p)
  openFails _ := false
  createFails _ := false
  log := []

/-- The converter `New(".", "jpg", "png")` returns. -/
def jpgToPng : Converter := ⟨['.'], ['j', 'p', 'g'], ['p', 'n', 'g']⟩

/-- The converter `New(".", "png", "gif")` returns. -/
def pngToGif : Converter := ⟨['.'], ['p', 'n', 'g'], ['g', 'i', 'f']⟩

/-- The converter `New(".", "jpeg", "png")` returns. -/
def jpegToPng : Converter := ⟨['.'], ['j', 'p', 'e', 'g'], ['p', 'n', 'g']⟩

/-- The converter `New(".", "JPG", "png")` returns. -/
def upperJpgToPng : Converter := ⟨['.'], ['J', 'P', 'G'], ['p', 'n', 'g']⟩

/-- The converter `New(".", "jpg", "PNG")` returns. -/
def jpgToUpperPng : Converter := ⟨['.'], ['j', 'p', 'g'], ['P', 'N', 'G']⟩

/-- The converter `New(".", "jpg", "Gif")` returns. -/
def jpgToMixedGif : Converter := ⟨['.'], ['j', 'p', 'g'], ['G', 'i', 'f']⟩

/-- A directory holding a text file named `a.jpg`. -/
def textWorld : World := worldOf [("a.jpg".toList, [104, 105, 10])]

/-- A directory holding a GIF `a.gif` and a PNG `a.png` of different pictures. -/
def pairWorld : World := worldOf [("a.gif".toList, [3, 9]), ("a.png".toList, [2, 7])]

/-- A directory holding two JPEG files, `a.jpeg` and `a.jpg`. -/
def twinWorld : World := worldOf [("a.jpeg".toList, [1, 5]), ("a.jpg".toList, [1, 6])]

/-- A directory holding one JPEG file, `a.jpg`. -/
def oneJpgWorld : World := worldOf [("a.jpg".toList, [1, 6])]

/-- A directory holding the JPEG files `a.jpg` and `c.jpg` and, between them,
a text file named `b.jpg`. -/
def mixedWorld : World :=
  worldOf [("a.jpg".toList, [1, 6]), ("b.jpg".toList, [104, 105, 10]), ("c.jpg".toList, [1, 8])]

/-- A directory holding two JPEG files with different names, `a.jpg` and
`b.jpg`. -/
def twoJpgWorld : World := worldOf [("a.jpg".toList, [1, 6]), ("b.jpg".toList, [1, 8])]

/-- A directory holding a PNG `a.png` and a link `a.gif` to it. -/
def linkedWorld : World :=
  { worldOf [("a.png".toList, [2, 7])] with
    resolve := fun p => if p = "a.gif".toList then "a.png".toList else p }

/-- The facts about the Unicode case table that the proofs use: lower-casing a
lower-cased rune changes nothing, and no rune above ASCII becomes a dot or a
slash. -/
structure CaseTable (ul : Char → Char) : Prop where
  idem : ∀ c : Char, 128 ≤ c.toNat → lowerRune ul (ul c) = ul c
  not_dot : ∀ c : Char, 128 ≤ c.toNat → ul c ≠ '.'
  not_slash : ∀ c : Char, 128 ≤ c.toNat → ul c ≠ '/'

/-- Go `filepath.Split` on Unix: the path up to and including its final slash, and
the rest. -/
def Split (path : Str) : Str × Str :=
  ((path.reverse.dropWhile (fun c => decide (c ≠ '/'))).reverse,
   (path.reverse.takeWhile (fun c => decide (c ≠ '/'))).reverse)

/-- The string `normalizedExt` lower-cases: the extension without its dot, or
the whole argument if that is empty. -/
def core (s : Str) : Str :=
  if TrimLeft (Ext s) ['.'] = [] then s else TrimLeft (Ext s) ['.']

/-- The final `switch` of `normalizedExt`. -/
def unify (ext : Str) : Str :=
  if ext = ['j', 'p', 'e', 'g'] ∨ ext = ['j', 'p', 'g'] then ['j', 'p', 'g'] else ext

/-- The `switch` of `convert` as a relation: `enc` is what the encoder selected
by the target format `toExt` does on `img`. -/
def Encodes {Image : Type} (cd : Codec Image) (toExt : Str) (img : Image) (enc : Encoded) :
    Prop :=
  ((toExt = ['j', 'p', 'g'] ∨ toExt = ['j', 'p', 'e', 'g']) ∧ enc = cd.jpegEncode img)
  ∨ (toExt = ['p', 'n', 'g'] ∧ enc = cd.pngEncode img)
  ∨ (toExt = ['g', 'i', 'f'] ∧ enc = cd.gifEncode img)

/-- The file at `p` is transcoded between the states `w` and `w1`: it is
opened, the output file is created, what the reader yields decodes to an image,
the encoder for the target format succeeds on that image, and `w1` is the state
with the encoder's bytes in the output file. -/
def Transcoded {Image : Type} (cd : Codec Image) (c : Converter) (p : Str) (w w1 : World) :
    Prop :=
  ∃ wo wc img enc, osOpen w p = some wo ∧ osCreate wo (c.dest p) = some wc ∧
    cd.decode (readAll wc p) = some img ∧ Encodes cd c.ToExt img enc ∧ enc.ok = true ∧
    w1 = writeAll wc (c.dest p) (some enc.written)

/-- The paths created, in order, according to a log. -/
def createdPaths (log : List Op) : List Str :=
  log.filterMap fun
    | .created p => some p
    | _ => none

/-- The paths of the entries that pass the source filter of the callback, in
traversal order. -/
def matching (ul : Char → Char) (c : Converter) (entries : List Entry) : List Str :=
  entries.filterMap fun
    | .file p => if normalizedExt ul p = c.FromExt then some p else none
    | _ => none

/-! ## Runes -/

theorem toNat_ofNat_small (n : Nat) (h : n < 55296) : (Char.ofNat n).toNat = n := by
  have hv : n.isValidChar := Or.inl h
  simp only [Char.ofNat, hv, Char.ofNatAux, Char.toNat, dite_true]
  rfl

theorem lowerRune_upper (ul : Char → Char) (c : Char) (h1 : 65 ≤ c.toNat) (h2 : c.toNat ≤ 90) :
    (lowerRune ul c).toNat = c.toNat + 32 := by
  have h3 : c.toNat < 128 := by omega
  simp only [lowerRune, h3, h1, h2, and_self, if_true]
  exact toNat_ofNat_small _ (by omega)

theorem lowerRune_ascii (ul : Char → Char) (c : Char) (h : c.toNat < 128)
    (h' : ¬ (65 ≤ c.toNat ∧ c.toNat ≤ 90)) : lowerRune ul c = c := by
  simp [lowerRune, h, h']

theorem lowerRune_high (ul : Char → Char) (c : Char) (h : 128 ≤ c.toNat) :
    lowerRune ul c = ul c := by
  have : ¬ c.toNat < 128 := by omega
  simp [lowerRune, this]

/-- A rune below `A` is the lower-case form of itself only, as long as the case
table does not produce it. -/
theorem lowerRune_eq_iff (ul : Char → Char) (d : Char) (hd : d.toNat < 65)
    (hul : ∀ c : Char, 128 ≤ c.toNat → ul c ≠ d) (c : Char) :
    lowerRune ul c = d ↔ c = d := by
  by_cases h : c.toNat < 128
  · by_cases hu : 65 ≤ c.toNat ∧ c.toNat ≤ 90
    · have := lowerRune_upper ul c hu.1 hu.2
      constructor
      · intro e; rw [e] at this; omega
      · intro e; rw [e] at hu; omega
    · rw [lowerRune_ascii ul c h hu]
  · rw [lowerRune_high ul c (by omega)]
    constructor
    · intro e; exact absurd e (hul c (by omega))
    · intro e; rw [e] at h; omega

theorem lowerRune_eq_dot {ul : Char → Char} (h : CaseTable ul) (c : Char) :
    lowerRune ul c = '.' ↔ c = '.' :=
  lowerRune_eq_iff ul '.' (by decide) h.not_dot c

theorem lowerRune_eq_slash {ul : Char → Char} (h : CaseTable ul) (c : Char) :
    lowerRune ul c = '/' ↔ c = '/' :=
  lowerRune_eq_iff ul '/' (by decide) h.not_slash c

theorem lowerRune_idem {ul : Char → Char} (h : CaseTable ul) (c : Char) :
    lowerRune ul (lowerRune ul c) = lowerRune ul c := by
  by_cases h1 : c.toNat < 128
  · by_cases hu : 65 ≤ c.toNat ∧ c.toNat ≤ 90
    · have := lowerRune_upper ul c hu.1 hu.2
      exact lowerRune_ascii ul _ (by omega) (by omega)
    · rw [lowerRune_ascii ul c h1 hu, lowerRune_ascii ul c h1 hu]
  · rw [lowerRune_high ul c (by omega)]
    exact h.idem c (by omega)

theorem ToLower_idem {ul : Char → Char} (h : CaseTable ul) (s : Str) :
    ToLower ul (ToLower ul s) = ToLower ul s := by
  simp [ToLower, List.map_map, Function.comp_def, lowerRune_idem h]

theorem caseTable_id : CaseTable (fun c => c) where
  idem c hc := lowerRune_high _ c hc
  not_dot c hc e := by rw [e] at hc; revert hc; decide
  not_slash c hc e := by rw [e] at hc; revert hc; decide

/-! ## `filepath.Ext` -/

theorem scan_map (f : Char → Char) (hd : ∀ c, f c = '.' ↔ c = '.')
    (hs : ∀ c, f c = '/' ↔ c = '/') (rest seen : Str) :
    Ext.scan (rest.map f) (seen.map f) = (Ext.scan rest seen).map f := by
  induction rest generalizing seen with
  | nil => rfl
  | cons c rest ih =>
    simp only [List.map_cons, Ext.scan, hd, hs]
    by_cases h1 : c = '/'
    · simp [h1]
    · by_cases h2 : c = '.'
      · simp [h2, hd]
      · simp only [h1, h2, if_false]
        exact ih (c :: seen)

theorem Ext_map (f : Char → Char) (hd : ∀ c, f c = '.' ↔ c = '.')
    (hs : ∀ c, f c = '/' ↔ c = '/') (s : Str) : Ext (s.map f) = (Ext s).map f := by
  unfold Ext
  rw [← List.map_reverse]
  exact scan_map f hd hs s.reverse []

theorem scan_append (r r' seen : Str) :
    Ext.scan (r ++ r') seen =
      if '/' ∈ r ∨ '.' ∈ r then Ext.scan r seen else Ext.scan r' (r.reverse ++ seen) := by
  induction r generalizing seen with
  | nil => simp
  | cons c r ih =>
    by_cases h1 : c = '/'
    · simp [Ext.scan, h1]
    · by_cases h2 : c = '.'
      · simp [Ext.scan, h2]
      · have e1 : ('/' ∈ c :: r ∨ '.' ∈ c :: r) ↔ ('/' ∈ r ∨ '.' ∈ r) := by
          simp [List.mem_cons, Ne.symm h1, Ne.symm h2]
        rw [if_congr e1 rfl rfl]
        simp only [List.cons_append, Ext.scan, h1, h2, if_false, List.reverse_cons,
          List.append_assoc, List.singleton_append]
        exact ih (c :: seen)

theorem scan_suffix (rest seen : Str) : Ext.scan rest seen <:+ rest.reverse ++ seen := by
  induction rest generalizing seen with
  | nil => exact List.nil_suffix
  | cons c rest ih =>
    by_cases h1 : c = '/'
    · simp [Ext.scan, h1]
    · by_cases h2 : c = '.'
      · simp only [Ext.scan, h1, h2, if_false, if_true, List.reverse_cons, List.append_assoc,
          List.singleton_append]
        exact List.suffix_append _ _
      · simp only [Ext.scan, h1, h2, if_false, List.reverse_cons, List.append_assoc,
          List.singleton_append]
        exact ih (c :: seen)

theorem scan_no_slash (rest seen : Str) (h : '/' ∉ seen) : '/' ∉ Ext.scan rest seen := by
  induction rest generalizing seen with
  | nil => simp [Ext.scan]
  | cons c rest ih =>
    by_cases h1 : c = '/'
    · simp [Ext.scan, h1]
    · by_cases h2 : c = '.'
      · simp only [Ext.scan, h1, h2, if_false, if_true]
        simpa using h
      · simp only [Ext.scan, h1, h2, if_false]
        exact ih (c :: seen) (by simp [List.mem_cons, Ne.symm h1, h])

theorem Ext_suffix (path : Str) : Ext path <:+ path := by
  have := scan_suffix path.reverse []
  simpa [Ext] using this

theorem Ext_no_slash (path : Str) : '/' ∉ Ext path :=
  scan_no_slash _ _ (by simp)

theorem Ext_append (a b : Str) :
    Ext (a ++ b) = if '/' ∈ b ∨ '.' ∈ b then Ext b else Ext.scan a.reverse b := by
  simp [Ext, scan_append]

/-- With no dot and no slash in it, a string has no extension. -/
theorem Ext_plain (s : Str) (h1 : '/' ∉ s) (h2 : '.' ∉ s) : Ext s = [] := by
  have := Ext_append [] s
  simpa [h1, h2, Ext.scan] using this

/-- The extension of `stem.t` is the extension of `t`, or `.t` if `t` has none
and names no directory. -/
theorem Ext_dot_append (stem t : Str) :
    Ext (stem ++ '.' :: t) = if '/' ∈ t ∨ '.' ∈ t then Ext t else '.' :: t := by
  have e1 : Ext (stem ++ '.' :: t) = Ext ('.' :: t) := by
    rw [Ext_append]; simp
  have e2 := Ext_append ['.'] t
  rw [e1]
  simpa [Ext.scan] using e2

/-! ## Trimming -/

theorem TrimSuffix_append (a b : Str) : TrimSuffix (a ++ b) b = a := by
  have h : b.isSuffixOf (a ++ b) = true := by
    rw [List.isSuffixOf_iff_suffix]; exact List.suffix_append a b
  simp [TrimSuffix, h]

/-- A path is its stem followed by its extension. -/
theorem stem_append_Ext (path : Str) : TrimSuffix path (Ext path) ++ Ext path = path := by
  obtain ⟨t, ht⟩ := Ext_suffix path
  have key := TrimSuffix_append t (Ext path)
  rw [ht] at key
  rw [key, ht]

theorem TrimLeft_map (f : Char → Char) (hd : ∀ c, f c = '.' ↔ c = '.') (s : Str) :
    TrimLeft (s.map f) ['.'] = (TrimLeft s ['.']).map f := by
  induction s with
  | nil => rfl
  | cons c s ih =>
    unfold TrimLeft at ih ⊢
    by_cases h : c = '.'
    · simpa [List.dropWhile, h, (hd '.').2 rfl] using ih
    · have h' : f c ≠ '.' := fun e => h ((hd c).1 e)
      simp [List.dropWhile, h, h']

theorem TrimLeft_dot_cons (t : Str) : TrimLeft ('.' :: t) ['.'] = TrimLeft t ['.'] := by
  simp [TrimLeft, List.dropWhile]

theorem TrimLeft_plain (t : Str) (h : '.' ∉ t) : TrimLeft t ['.'] = t := by
  cases t with
  | nil => rfl
  | cons c t =>
    have : c ≠ '.' := fun e => h (by simp [e])
    simp [TrimLeft, List.dropWhile, this]

/-! ## `normalizedExt` -/

theorem normalizedExt_eq (ul : Char → Char) (s : Str) :
    normalizedExt ul s = unify (ToLower ul (core s)) := rfl

theorem core_map (f : Char → Char) (hd : ∀ c, f c = '.' ↔ c = '.')
    (hs : ∀ c, f c = '/' ↔ c = '/') (s : Str) : core (s.map f) = (core s).map f := by
  unfold core
  rw [Ext_map f hd hs, TrimLeft_map f hd]
  by_cases h : TrimLeft (Ext s) ['.'] = []
  · simp [h]
  · simp [h]

/-- Lower-casing the argument first does not change `normalizedExt`. -/
theorem normalizedExt_ToLower {ul : Char → Char} (h : CaseTable ul) (s : Str) :
    normalizedExt ul (ToLower ul s) = normalizedExt ul s := by
  rw [normalizedExt_eq, normalizedExt_eq]
  have : core (ToLower ul s) = ToLower ul (core s) :=
    core_map _ (lowerRune_eq_dot h) (lowerRune_eq_slash h) s
  rw [this, ToLower_idem h]

theorem ToLower_mem_iff (ul : Char → Char) (d : Char) (hd : lowerRune ul d = d) (s : Str)
    (h : d ∈ s) : d ∈ ToLower ul s := by
  unfold ToLower
  exact hd ▸ List.mem_map_of_mem _ h

/-- A lower-cased string that reads `jpg`, `jpeg`, `png` or `gif` comes from a
string with no dot and no slash. -/
theorem plain_of_ToLower (ul : Char → Char) (s x : Str) (hx : ToLower ul s = x)
    (h1 : '/' ∉ x) (h2 : '.' ∉ x) : '/' ∉ s ∧ '.' ∉ s := by
  subst hx
  exact ⟨fun h => h1 (ToLower_mem_iff ul '/' rfl s h), fun h => h2 (ToLower_mem_iff ul '.' rfl s h)⟩

theorem normalizedExt_plain (ul : Char → Char) (s : Str) (h1 : '/' ∉ s) (h2 : '.' ∉ s) :
    normalizedExt ul s = unify (ToLower ul s) := by
  rw [normalizedExt_eq]
  simp [core, Ext_plain s h1 h2, TrimLeft]

theorem normalizedExt_dot_plain (ul : Char → Char) (stem s : Str) (h1 : '/' ∉ s) (h2 : '.' ∉ s)
    (h3 : s ≠ []) : normalizedExt ul (stem ++ '.' :: s) = unify (ToLower ul s) := by
  rw [normalizedExt_eq]
  have e : Ext (stem ++ '.' :: s) = '.' :: s := by
    rw [Ext_dot_append]; simp [h1, h2]
  have : core (stem ++ '.' :: s) = s := by
    unfold core
    rw [e, TrimLeft_dot_cons, TrimLeft_plain s h2]
    simp [h3]
  rw [this]

theorem normalizedExt_jpg (ul : Char → Char) :
    normalizedExt ul ['j', 'p', 'g'] = ['j', 'p', 'g'] := rfl

theorem normalizedExt_jpeg (ul : Char → Char) :
    normalizedExt ul ['j', 'p', 'e', 'g'] = ['j', 'p', 'g'] := rfl

theorem normalizedExt_png (ul : Char → Char) :
    normalizedExt ul ['p', 'n', 'g'] = ['p', 'n', 'g'] := rfl

theorem normalizedExt_gif (ul : Char → Char) :
    normalizedExt ul ['g', 'i', 'f'] = ['g', 'i', 'f'] := rfl

theorem mem_supported (x : Str) :
    x ∈ supported ↔
      x = ['j', 'p', 'g'] ∨ x = ['j', 'p', 'e', 'g'] ∨ x = ['p', 'n', 'g'] ∨ x = ['g', 'i', 'f'] := by
  simp [supported]

theorem validate_none_iff (ul : Char → Char) (clean : Str → Str) (stat : Str → StatResult)
    (directory fromExt toExt : Str) :
    validate ul clean stat directory fromExt toExt = none ↔
      stat (clean directory) = .dir ∧ fromExt ∈ supported ∧
        normalizedExt ul fromExt ≠ normalizedExt ul toExt := by
  show (match stat (clean directory) with
    | .notExist => some (Error.notExist (clean directory))
    | .failed => some (Error.statFailed (clean directory))
    | .file => some (Error.notDirectory (clean directory))
    | .dir =>
      if fromExt ∉ supported then some (Error.unsupported fromExt)
      else if normalizedExt ul fromExt = normalizedExt ul toExt then
        some (Error.sameFormat fromExt toExt)
      else none) = none ↔ _
  cases stat (clean directory) <;> simp only [reduceCtorEq, false_and, true_and]
  by_cases h1 : fromExt ∈ supported
  · by_cases h2 : normalizedExt ul fromExt = normalizedExt ul toExt
    · simp [h1, h2]
    · simp [h1, h2]
  · simp [h1]

theorem New_ok_iff_validate (ul : Char → Char) (clean : Str → Str) (stat : Str → StatResult)
    (directory fromExt toExt : Str) (c : Converter) :
    New ul clean stat directory fromExt toExt = .ok c ↔
      validate ul clean stat directory (ToLower ul fromExt) (ToLower ul toExt) = none ∧
        c = ⟨directory, fromExt, toExt⟩ := by
  unfold New
  cases hv : validate ul clean stat directory (ToLower ul fromExt) (ToLower ul toExt) with
  | none =>
    simp only [true_and]
    constructor
    · intro e; injection e with e; exact e.symm
    · intro e; rw [e]
  | some err => simp

/-- C2: `New` succeeds exactly when the cleaned directory is reported as a
directory by `os.Stat`, the lower-cased source format is one of jpg, jpeg, png,
gif, and the lower-cased source and target formats normalize differently. It
fails for a missing directory, for a regular file, for source `bmp` and for
source `jpeg` with target `jpg` in any letter case; it succeeds for a supported
source with target `bmp`. -/
theorem New_succeeds_iff (ul : Char → Char) (clean : Str → Str) (stat : Str → StatResult)
    (directory fromExt toExt : Str) :
    ((∃ c, New ul clean stat directory fromExt toExt = .ok c) ↔
      (stat (clean directory) = .dir ∧ ToLower ul fromExt ∈ supported ∧
        normalizedExt ul (ToLower ul fromExt) ≠ normalizedExt ul (ToLower ul toExt)))
    ∧ (stat (clean directory) = .notExist →
        ∀ c, New ul clean stat directory fromExt toExt ≠ .ok c)
    ∧ (stat (clean directory) = .file →
        ∀ c, New ul clean stat directory fromExt toExt ≠ .ok c)
    ∧ (ToLower ul fromExt = ['b', 'm', 'p'] →
        ∀ c, New ul clean stat directory fromExt toExt ≠ .ok c)
    ∧ (ToLower ul fromExt = ['j', 'p', 'e', 'g'] → ToLower ul toExt = ['j', 'p', 'g'] →
        ∀ c, New ul clean stat directory fromExt toExt ≠ .ok c)
    ∧ (stat (clean directory) = .dir → ToLower ul fromExt ∈ supported →
        New ul clean stat directory fromExt ['b', 'm', 'p'] =
          .ok ⟨directory, fromExt, ['b', 'm', 'p']⟩) := by
  have key : ∀ t c, New ul clean stat directory fromExt t = .ok c →
      stat (clean directory) = .dir ∧ ToLower ul fromExt ∈ supported ∧
        normalizedExt ul (ToLower ul fromExt) ≠ normalizedExt ul (ToLower ul t) := by
    intro t c hc
    exact (validate_none_iff ..).1 ((New_ok_iff_validate ..).1 hc).1
  refine ⟨⟨?_, ?_⟩, ?_, ?_, ?_, ?_, ?_⟩
  · rintro ⟨c, hc⟩; exact key _ c hc
  · intro h
    exact ⟨_, (New_ok_iff_validate ..).2 ⟨(validate_none_iff ..).2 h, rfl⟩⟩
  · intro hs c hc
    have := (key _ c hc).1
    rw [hs] at this; exact absurd this (by decide)
  · intro hs c hc
    have := (key _ c hc).1
    rw [hs] at this; exact absurd this (by decide)
  · intro hf c hc
    have := (key _ c hc).2.1
    rw [hf] at this; exact absurd this (by decide)
  · intro hf ht c hc
    have := (key _ c hc).2.2
    rw [hf, ht] at this; exact this rfl
  · intro hs hf
    refine (New_ok_iff_validate ..).2 ⟨(validate_none_iff ..).2 ⟨hs, hf, ?_⟩, rfl⟩
    have hb : normalizedExt ul (ToLower ul ['b', 'm', 'p']) = ['b', 'm', 'p'] := rfl
    rw [hb]
    rcases (mem_supported _).1 hf with e | e | e | e <;> rw [e]
    · rw [normalizedExt_jpg]; decide
    · rw [normalizedExt_jpeg]; decide
    · rw [normalizedExt_png]; decide
    · rw [normalizedExt_gif]; decide

/-- Worked instance for C2, at source `JPG`, target `bmp` and a
`stat` that reports a directory. -/
theorem New_succeeds_iff_witness :
    New (fun c => c) (fun p => p) (fun _ => StatResult.dir) ['.'] ['J', 'P', 'G'] ['b', 'm', 'p'] =
      .ok ⟨['.'], ['J', 'P', 'G'], ['b', 'm', 'p']⟩ :=
  (New_succeeds_iff (fun c => c) (fun p => p) (fun _ => StatResult.dir) ['.'] ['J', 'P', 'G']
    ['b', 'm', 'p']).2.2.2.2.2 rfl (by decide)

/-- C9: every letter-case variant of `jpg` and `jpeg`, bare or as the extension
of a path, normalizes to `jpg`; `jpg` and `png` normalize differently; and for
a case table that is idempotent and produces no dot or slash, `normalizedExt`
gives the same value on a string and on its lower-cased form. -/
theorem normalizedExt_case_insensitive (ul : Char → Char) :
    (∀ s, ToLower ul s = ['j', 'p', 'g'] ∨ ToLower ul s = ['j', 'p', 'e', 'g'] →
        normalizedExt ul s = ['j', 'p', 'g'] ∧
          ∀ stem, normalizedExt ul (stem ++ '.' :: s) = ['j', 'p', 'g'])
    ∧ normalizedExt ul ['J', 'P', 'G'] = ['j', 'p', 'g']
    ∧ normalizedExt ul ['j', 'p', 'g'] = ['j', 'p', 'g']
    ∧ normalizedExt ul ['J', 'P', 'E', 'G'] = ['j', 'p', 'g']
    ∧ normalizedExt ul ['j', 'p', 'e', 'g'] = ['j', 'p', 'g']
    ∧ normalizedExt ul ['d', 'i', 'r', '/', 'a', '.', 'J', 'P', 'E', 'G'] = ['j', 'p', 'g']
    ∧ normalizedExt ul ['j', 'p', 'g'] ≠ normalizedExt ul ['p', 'n', 'g']
    ∧ (CaseTable ul → ∀ s, normalizedExt ul s = normalizedExt ul (ToLower ul s)) := by
  refine ⟨?_, rfl, rfl, rfl, rfl, rfl, ?_, fun h s => (normalizedExt_ToLower h s).symm⟩
  · intro s hs
    have hplain : '/' ∉ s ∧ '.' ∉ s := by
      rcases hs with e | e <;> exact plain_of_ToLower ul s _ e (by decide) (by decide)
    have hne : s ≠ [] := by
      rintro rfl
      rcases hs with e | e <;> exact absurd e (by simp [ToLower])
    have hu : unify (ToLower ul s) = ['j', 'p', 'g'] := by
      rcases hs with e | e <;> rw [e] <;> rfl
    refine ⟨?_, fun stem => ?_⟩
    · rw [normalizedExt_plain ul s hplain.1 hplain.2, hu]
    · rw [normalizedExt_dot_plain ul stem s hplain.1 hplain.2 hne, hu]
  · rw [normalizedExt_jpg, normalizedExt_png]; decide

/-- Worked instance for C9, for the ASCII case table
at the path `a.JpG`. -/
theorem normalizedExt_case_insensitive_witness :
    normalizedExt (fun c => c) ['a', '.', 'J', 'p', 'G'] =
      normalizedExt (fun c => c) (ToLower (fun c => c) ['a', '.', 'J', 'p', 'G']) :=
  (normalizedExt_case_insensitive (fun c => c)).2.2.2.2.2.2.2 caseTable_id _

/-! ## The output path -/

theorem dest_eq (c : Converter) (p : Str) :
    c.dest p = TrimSuffix p (Ext p) ++ '.' :: c.ToExt := by
  simp [Converter.dest]

theorem Split_append (a b : Str) (h : '/' ∉ b) :
    Split (a ++ b) = ((Split a).1, (Split a).2 ++ b) := by
  have hb : ∀ x ∈ b.reverse, decide (x ≠ '/') = true := by
    intro x hx
    have : x ≠ '/' := fun e => h (by rw [← e]; exact List.mem_reverse.1 hx)
    simpa using this
  simp only [Split, List.reverse_append, List.dropWhile_append_of_pos hb,
    List.takeWhile_append_of_pos hb, List.reverse_reverse]

/-- C7: the output path is the input path with its final extension removed,
followed by a dot and the target format exactly as stored, and `New` stores the
target format exactly as given; when the target format has no slash and no dot,
the output path has the directory part of the input path, the same file name up
to the extension, and the extension `.` followed by the target format. -/
theorem dest_replaces_extension (c : Converter) (p : Str) :
    (TrimSuffix p (Ext p) ++ Ext p = p ∧ c.dest p = TrimSuffix p (Ext p) ++ '.' :: c.ToExt)
    ∧ (∀ ul clean stat directory fromExt toExt,
        New ul clean stat directory fromExt toExt = .ok c → c.ToExt = toExt)
    ∧ ('/' ∉ c.ToExt → '.' ∉ c.ToExt →
        (Split (c.dest p)).1 = (Split p).1 ∧
        TrimSuffix (Split (c.dest p)).2 (Ext (c.dest p)) = TrimSuffix (Split p).2 (Ext p) ∧
        Ext (c.dest p) = '.' :: c.ToExt) := by
  refine ⟨⟨stem_append_Ext p, dest_eq c p⟩, ?_, ?_⟩
  · intro ul clean stat directory fromExt toExt hnew
    rw [((New_ok_iff_validate ..).1 hnew).2]
  · intro h1 h2
    have hd : Split (c.dest p) = _ :=
      dest_eq c p ▸ Split_append (TrimSuffix p (Ext p)) ('.' :: c.ToExt) (by simp [h1])
    have hp : Split (TrimSuffix p (Ext p) ++ Ext p) = _ :=
      Split_append (TrimSuffix p (Ext p)) (Ext p) (Ext_no_slash p)
    rw [stem_append_Ext] at hp
    have he : Ext (c.dest p) = '.' :: c.ToExt := by
      rw [dest_eq, Ext_dot_append]; simp [h1, h2]
    refine ⟨by rw [hd, hp], ?_, he⟩
    rw [hd, hp, he]
    simp only [TrimSuffix_append]

/-- Worked instance for C7, for target `png` at the path
`dir/a.b.jpg`. -/
theorem dest_replaces_extension_witness :
    (Split ((Converter.mk ['.'] ['j', 'p', 'g'] ['p', 'n', 'g']).dest
        ['d', 'i', 'r', '/', 'a', '.', 'b', '.', 'j', 'p', 'g'])).1 =
      (Split ['d', 'i', 'r', '/', 'a', '.', 'b', '.', 'j', 'p', 'g']).1 ∧
    TrimSuffix (Split ((Converter.mk ['.'] ['j', 'p', 'g'] ['p', 'n', 'g']).dest
        ['d', 'i', 'r', '/', 'a', '.', 'b', '.', 'j', 'p', 'g'])).2
        (Ext ((Converter.mk ['.'] ['j', 'p', 'g'] ['p', 'n', 'g']).dest
          ['d', 'i', 'r', '/', 'a', '.', 'b', '.', 'j', 'p', 'g'])) =
      TrimSuffix (Split ['d', 'i', 'r', '/', 'a', '.', 'b', '.', 'j', 'p', 'g']).2
        (Ext ['d', 'i', 'r', '/', 'a', '.', 'b', '.', 'j', 'p', 'g']) ∧
    Ext ((Converter.mk ['.'] ['j', 'p', 'g'] ['p', 'n', 'g']).dest
        ['d', 'i', 'r', '/', 'a', '.', 'b', '.', 'j', 'p', 'g']) = ['.', 'p', 'n', 'g'] :=
  (dest_replaces_extension ⟨['.'], ['j', 'p', 'g'], ['p', 'n', 'g']⟩
    ['d', 'i', 'r', '/', 'a', '.', 'b', '.', 'j', 'p', 'g']).2.2 (by decide) (by decide)

/-! ## The callback -/

theorem osOpen_some {w w1 : World} {path : Str} (h : osOpen w path = some w1) :
    w1 = { w with log := w.log ++ [.opened path] } := by
  unfold osOpen at h
  split at h
  · exact absurd h (by simp)
  · exact (Option.some.inj h).symm

theorem osCreate_some {w w2 : World} {path : Str} (h : osCreate w path = some w2) :
    w2 = { w with
      files := fun k => if k = w.resolve path then some [] else w.files k
      log := w.log ++ [.created path] } := by
  unfold osCreate at h
  split at h
  · exact absurd h (by simp)
  · exact (Option.some.inj h).symm

theorem walkFn_skip {Image : Type} (ul : Char → Char) (cd : Codec Image) (c : Converter)
    (p : Str) (w : World) (h : normalizedExt ul p ≠ c.FromExt) :
    c.walkFn ul cd (.file p) w = (none, w) := by
  simp [Converter.walkFn, h]

theorem walkFn_open_fails {Image : Type} (ul : Char → Char) (cd : Codec Image) (c : Converter)
    (p : Str) (w : World) (h : normalizedExt ul p = c.FromExt) (ho : osOpen w p = none) :
    c.walkFn ul cd (.file p) w = (some (.openFailed p), w) := by
  simp [Converter.walkFn, h, ho]

theorem walkFn_create_fails {Image : Type} (ul : Char → Char) (cd : Codec Image)
    (c : Converter) (p : Str) (w w1 : World) (h : normalizedExt ul p = c.FromExt)
    (ho : osOpen w p = some w1) (hc : osCreate w1 (c.dest p) = none) :
    c.walkFn ul cd (.file p) w = (some (.createFailed (c.dest p)), w1) := by
  simp [Converter.walkFn, h, ho, hc]

theorem walkFn_convert {Image : Type} (ul : Char → Char) (cd : Codec Image) (c : Converter)
    (p : Str) (w w1 w2 : World) (h : normalizedExt ul p = c.FromExt)
    (ho : osOpen w p = some w1) (hc : osCreate w1 (c.dest p) = some w2) :
    c.walkFn ul cd (.file p) w =
      ((c.convert cd (readAll w2 p)).1, writeAll w2 (c.dest p) (c.convert cd (readAll w2 p)).2) := by
  simp [Converter.walkFn, h, ho, hc]

theorem result_ok (enc : Encoded) (h : enc.result.1 = none) :
    enc.ok = true ∧ enc.result = (none, some enc.written) := by
  unfold Encoded.result at h ⊢
  cases hk : enc.ok with
  | true => simp
  | false => rw [hk] at h; simp at h

/-- When `convert` returns nil, the source decoded, and the encoder selected by
the target format ran on the image and succeeded. -/
theorem convert_ok {Image : Type} (cd : Codec Image) (c : Converter) (r : Bytes)
    (h : (c.convert cd r).1 = none) :
    ∃ img enc, cd.decode r = some img ∧ Encodes cd c.ToExt img enc ∧ enc.ok = true ∧
      c.convert cd r = (none, some enc.written) := by
  unfold Converter.convert at h ⊢
  cases hd : cd.decode r with
  | none => rw [hd] at h; simp at h
  | some img =>
    rw [hd] at h
    simp only at h ⊢
    split_ifs at h ⊢ with h1 h2 h3
    · exact ⟨img, _, rfl, Or.inl ⟨h1, rfl⟩, result_ok _ h⟩
    · exact ⟨img, _, rfl, Or.inr (Or.inl ⟨h2, rfl⟩), result_ok _ h⟩
    · exact ⟨img, _, rfl, Or.inr (Or.inr ⟨h3, rfl⟩), result_ok _ h⟩

/-- What the two states of a transcoded file have to do with each other. -/
theorem Transcoded.spec {Image : Type} {cd : Codec Image} {c : Converter} {p : Str}
    {w w1 : World} (h : Transcoded cd c p w w1) :
    w1.resolve = w.resolve
    ∧ contents w p ≠ none
    ∧ (∃ data, contents w1 (c.dest p) = some data ∧
        w1.log = w.log ++ [.opened p, .created (c.dest p), .wrote (c.dest p) data]) := by
  obtain ⟨wo, wc, img, enc, ho, hc, -, -, -, rfl⟩ := h
  have e1 := osOpen_some ho
  have e2 := osCreate_some hc
  subst e2; subst e1
  refine ⟨rfl, ?_, enc.written, by simp [contents, writeAll], by simp [writeAll]⟩
  intro hn
  simp [osOpen, hn] at ho

/-- A call of the callback that returns nil either changes nothing, or
transcodes the one file that passes the source filter. -/
theorem walkFn_ok {Image : Type} (ul : Char → Char) (cd : Codec Image) (c : Converter)
    (e : Entry) (w w1 : World) (h : c.walkFn ul cd e w = (none, w1)) :
    (matching ul c [e] = [] ∧ w1 = w) ∨
      ∃ p, e = .file p ∧ matching ul c [e] = [p] ∧ Transcoded cd c p w w1 := by
  cases e with
  | failed p => simp [Converter.walkFn] at h
  | dir p =>
    left
    simp only [Converter.walkFn, Prod.mk.injEq, true_and] at h
    exact ⟨rfl, h.symm⟩
  | file p =>
    by_cases hm : normalizedExt ul p = c.FromExt
    · right
      cases ho : osOpen w p with
      | none => rw [walkFn_open_fails ul cd c p w hm ho] at h; simp at h
      | some wo =>
        cases hc : osCreate wo (c.dest p) with
        | none => rw [walkFn_create_fails ul cd c p w wo hm ho hc] at h; simp at h
        | some wc =>
          rw [walkFn_convert ul cd c p w wo wc hm ho hc] at h
          simp only [Prod.mk.injEq] at h
          obtain ⟨img, enc, hd, henc, hok, hconv⟩ := convert_ok cd c _ h.1
          refine ⟨p, rfl, by simp [matching, hm], wo, wc, img, enc, ho, hc, hd, henc, hok, ?_⟩
          rw [← h.2, hconv]
    · left
      rw [walkFn_skip ul cd c p w hm] at h
      simp only [Prod.mk.injEq, true_and] at h
      exact ⟨by simp [matching, hm], h.symm⟩

/-- A summary of every outcome of the callback: links are untouched, the log
only grows, a path that held a file still holds one, and a path keeps its
contents unless it names the same file as the output path of a file that passes
the source filter. -/
theorem walkFn_effect {Image : Type} (ul : Char → Char) (cd : Codec Image) (c : Converter)
    (e : Entry) (w : World) :
    (c.walkFn ul cd e w).2.resolve = w.resolve
    ∧ (∀ o ∈ w.log, o ∈ (c.walkFn ul cd e w).2.log)
    ∧ (∀ q, contents w q ≠ none → contents (c.walkFn ul cd e w).2 q ≠ none)
    ∧ (∀ q, (∀ p, e = .file p → normalizedExt ul p = c.FromExt →
          w.resolve q ≠ w.resolve (c.dest p)) →
        contents (c.walkFn ul cd e w).2 q = contents w q) := by
  cases e with
  | failed p => exact ⟨rfl, fun _ h => h, fun _ h => h, fun _ _ => rfl⟩
  | dir p => exact ⟨rfl, fun _ h => h, fun _ h => h, fun _ _ => rfl⟩
  | file p =>
    by_cases h : normalizedExt ul p = c.FromExt
    · cases ho : osOpen w p with
      | none =>
        rw [walkFn_open_fails ul cd c p w h ho]
        exact ⟨rfl, fun _ h => h, fun _ h => h, fun _ _ => rfl⟩
      | some wo =>
        have e1 := osOpen_some ho
        cases hc : osCreate wo (c.dest p) with
        | none =>
          rw [walkFn_create_fails ul cd c p w wo h ho hc, e1]
          exact ⟨rfl, fun o ho => by simp [ho], fun _ h => h, fun _ _ => rfl⟩
        | some wc =>
          have e2 := osCreate_some hc
          rw [walkFn_convert ul cd c p w wo wc h ho hc]
          subst e2; subst e1
          cases (c.convert cd (readAll _ p)).2 with
          | none =>
            refine ⟨rfl, fun o ho => by simp [writeAll, ho], fun q hq => ?_, fun q hq => ?_⟩
            · simp only [writeAll, contents] at hq ⊢
              split_ifs <;> simp_all
            · have := hq p rfl h
              simp [writeAll, contents, this]
          | some data =>
            refine ⟨rfl, fun o ho => by simp [writeAll, ho], fun q hq => ?_, fun q hq => ?_⟩
            · simp only [writeAll, contents] at hq ⊢
              split_ifs <;> simp_all
            · have := hq p rfl h
              simp [writeAll, contents, this]
    · rw [walkFn_skip ul cd c p w h]
      exact ⟨rfl, fun _ h => h, fun _ h => h, fun _ _ => rfl⟩

/-! ## The walk -/

theorem matching_cons (ul : Char → Char) (c : Converter) (e : Entry) (es : List Entry) :
    matching ul c (e :: es) = matching ul c [e] ++ matching ul c es := by
  simp only [matching, List.filterMap_cons, List.filterMap_nil]
  split <;> simp

theorem walkEntries_cons_ok {Image : Type} (ul : Char → Char) (cd : Codec Image)
    (c : Converter) (e : Entry) (es : List Entry) (w w1 : World)
    (h : c.walkFn ul cd e w = (none, w1)) :
    c.walkEntries ul cd (e :: es) w = c.walkEntries ul cd es w1 := by
  simp [Converter.walkEntries, h]

theorem walkEntries_cons_err {Image : Type} (ul : Char → Char) (cd : Codec Image)
    (c : Converter) (e : Entry) (es : List Entry) (w w1 : World) (err : Error)
    (h : c.walkFn ul cd e w = (some err, w1)) :
    c.walkEntries ul cd (e :: es) w = (some err, w1) := by
  simp [Converter.walkEntries, h]

/-- The first failing call ends the walk in the state that call leaves. -/
theorem walkEntries_abort {Image : Type} (ul : Char → Char) (cd : Codec Image)
    (c : Converter) (pre : List Entry) (e : Entry) (post : List Entry) (w w1 w2 : World)
    (err : Error) (hpre : c.walkEntries ul cd pre w = (none, w1))
    (he : c.walkFn ul cd e w1 = (some err, w2)) :
    c.walkEntries ul cd (pre ++ e :: post) w = (some err, w2) := by
  induction pre generalizing w with
  | nil =>
    simp only [Converter.walkEntries, Prod.mk.injEq, true_and] at hpre
    subst hpre
    exact walkEntries_cons_err ul cd c e post w w2 err he
  | cons x xs ih =>
    rcases hx : c.walkFn ul cd x w with ⟨_ | err1, wx⟩
    · rw [walkEntries_cons_ok ul cd c x xs w wx hx] at hpre
      rw [List.cons_append, walkEntries_cons_ok ul cd c x _ w wx hx]
      exact ih wx hpre
    · rw [walkEntries_cons_err ul cd c x xs w wx err1 hx] at hpre
      simp at hpre

/-- A successful walk over `e :: es` is a successful call on `e` followed by a
successful walk over `es`. -/
theorem walkEntries_cons_none {Image : Type} (ul : Char → Char) (cd : Codec Image)
    (c : Converter) (e : Entry) (es : List Entry) (w w2 : World)
    (h : c.walkEntries ul cd (e :: es) w = (none, w2)) :
    ∃ w1, c.walkFn ul cd e w = (none, w1) ∧ c.walkEntries ul cd es w1 = (none, w2) := by
  rcases hx : c.walkFn ul cd e w with ⟨_ | err1, wx⟩
  · rw [walkEntries_cons_ok ul cd c e es w wx hx] at h
    exact ⟨wx, rfl, h⟩
  · rw [walkEntries_cons_err ul cd c e es w wx err1 hx] at h
    simp at h

theorem walkEntries_append_none {Image : Type} (ul : Char → Char) (cd : Codec Image)
    (c : Converter) (a b : List Entry) (w w2 : World)
    (h : c.walkEntries ul cd (a ++ b) w = (none, w2)) :
    ∃ w1, c.walkEntries ul cd a w = (none, w1) ∧ c.walkEntries ul cd b w1 = (none, w2) := by
  induction a generalizing w with
  | nil => exact ⟨w, rfl, h⟩
  | cons x xs ih =>
    obtain ⟨wx, hx, hrest⟩ := walkEntries_cons_none ul cd c x (xs ++ b) w w2 h
    obtain ⟨w1, h1, h2⟩ := ih wx hrest
    exact ⟨w1, by rw [walkEntries_cons_ok ul cd c x xs w wx hx]; exact h1, h2⟩

/-- A summary of every outcome of a walk, as for one call of the callback. -/
theorem walkEntries_effect {Image : Type} (ul : Char → Char) (cd : Codec Image)
    (c : Converter) (es : List Entry) (w : World) :
    (c.walkEntries ul cd es w).2.resolve = w.resolve
    ∧ (∀ o ∈ w.log, o ∈ (c.walkEntries ul cd es w).2.log)
    ∧ (∀ q, contents w q ≠ none → contents (c.walkEntries ul cd es w).2 q ≠ none)
    ∧ (∀ q, (∀ p ∈ matching ul c es, w.resolve q ≠ w.resolve (c.dest p)) →
        contents (c.walkEntries ul cd es w).2 q = contents w q) := by
  induction es generalizing w with
  | nil => exact ⟨rfl, fun _ h => h, fun _ h => h, fun _ _ => rfl⟩
  | cons x xs ih =>
    obtain ⟨f1, f2, f3, f4⟩ := walkFn_effect ul cd c x w
    have hfirst : ∀ q, (∀ p ∈ matching ul c (x :: xs), w.resolve q ≠ w.resolve (c.dest p)) →
        contents (c.walkFn ul cd x w).2 q = contents w q := fun q hq =>
      f4 q fun p hp hm => hq p (by
        rw [matching_cons]; exact List.mem_append_left _ (by simp [matching, hp, hm]))
    rcases hx : c.walkFn ul cd x w with ⟨_ | err1, wx⟩
    · rw [hx] at f1 f2 f3 hfirst
      obtain ⟨g1, g2, g3, g4⟩ := ih wx
      rw [walkEntries_cons_ok ul cd c x xs w wx hx]
      simp only at f1 f2 f3 hfirst
      refine ⟨g1.trans f1, fun o ho => g2 o (f2 o ho), fun q hq => g3 q (f3 q hq),
        fun q hq => ?_⟩
      rw [g4 q, hfirst q hq]
      intro p hp
      rw [f1]
      exact hq p (by rw [matching_cons]; exact List.mem_append_right _ hp)
    · rw [hx] at f1 f2 f3 hfirst
      rw [walkEntries_cons_err ul cd c x xs w wx err1 hx]
      exact ⟨f1, f2, f3, fun q hq => hfirst q hq⟩

/-- In a successful walk every file that passes the source filter is
transcoded, in the state the walk has reached when it comes to the file, and
its output path still holds a file when the walk ends. -/
theorem walkEntries_transcodes {Image : Type} (ul : Char → Char) (cd : Codec Image)
    (c : Converter) (pre : List Entry) (p : Str) (post : List Entry) (w w2 : World)
    (h : c.walkEntries ul cd (pre ++ .file p :: post) w = (none, w2))
    (hm : normalizedExt ul p = c.FromExt) :
    ∃ wa wb, c.walkEntries ul cd pre w = (none, wa) ∧ Transcoded cd c p wa wb ∧
      c.walkEntries ul cd post wb = (none, w2) ∧ contents w2 (c.dest p) ≠ none := by
  obtain ⟨wa, ha, hrest⟩ := walkEntries_append_none ul cd c pre _ w w2 h
  obtain ⟨wb, hb, hpost⟩ := walkEntries_cons_none ul cd c _ post wa w2 hrest
  rcases walkFn_ok ul cd c _ wa wb hb with ⟨hnone, -⟩ | ⟨p1, hp1, -, ht⟩
  · simp [matching, hm] at hnone
  · cases hp1
    refine ⟨wa, wb, ha, ht, hpost, ?_⟩
    obtain ⟨-, -, data, hdata, -⟩ := ht.spec
    have := (walkEntries_effect ul cd c post wb).2.2.1 (c.dest p) (by rw [hdata]; simp)
    rwa [hpost] at this

/-- A successful walk creates, in traversal order, exactly the output paths of
the files that pass the source filter. -/
theorem walkEntries_created {Image : Type} (ul : Char → Char) (cd : Codec Image)
    (c : Converter) (es : List Entry) (w w2 : World)
    (h : c.walkEntries ul cd es w = (none, w2)) :
    createdPaths w2.log = createdPaths w.log ++ (matching ul c es).map c.dest := by
  induction es generalizing w with
  | nil =>
    simp only [Converter.walkEntries, Prod.mk.injEq, true_and] at h
    subst h
    simp [matching]
  | cons x xs ih =>
    obtain ⟨wx, hx, hrest⟩ := walkEntries_cons_none ul cd c x xs w w2 h
    rw [ih wx hrest, matching_cons]
    rcases walkFn_ok ul cd c x w wx hx with ⟨hm, hw⟩ | ⟨p, -, hm, ht⟩
    · rw [hm, hw]; simp
    · obtain ⟨-, -, data, -, hlog⟩ := ht.spec
      rw [hm, hlog]; simp [createdPaths]

theorem mem_matching (ul : Char → Char) (c : Converter) (es : List Entry) (p : Str) :
    p ∈ matching ul c es ↔ Entry.file p ∈ es ∧ normalizedExt ul p = c.FromExt := by
  unfold matching
  rw [List.mem_filterMap]
  constructor
  · rintro ⟨e, he, h⟩
    cases e with
    | failed q => simp at h
    | dir q => simp at h
    | file q =>
      by_cases hq : normalizedExt ul q = c.FromExt
      · simp only [hq, if_true, Option.some.injEq] at h
        subst h; exact ⟨he, hq⟩
      · simp [hq] at h
  · rintro ⟨he, hm⟩
    exact ⟨_, he, by simp [hm]⟩

/-- C1, at source `jpeg` and at source `JPG`: `New` accepts the source format,
the files `a.jpeg` and `a.jpg` have its canonical extension, and the callback
skips them; with source `jpeg` the callback skips every file. -/
theorem uncanonical_source_selects_nothing :
    (∀ ul clean, New ul clean (fun _ => StatResult.dir) ['.'] ['j', 'p', 'e', 'g'] ['p', 'n', 'g'] =
        .ok jpegToPng)
    ∧ (∀ ul clean, New ul clean (fun _ => StatResult.dir) ['.'] ['J', 'P', 'G'] ['p', 'n', 'g'] =
        .ok upperJpgToPng)
    ∧ (∀ ul, normalizedExt ul ['a', '.', 'j', 'p', 'e', 'g'] = normalizedExt ul jpegToPng.FromExt
        ∧ normalizedExt ul ['a', '.', 'j', 'p', 'g'] = normalizedExt ul jpegToPng.FromExt
        ∧ normalizedExt ul ['a', '.', 'j', 'p', 'e', 'g'] = normalizedExt ul upperJpgToPng.FromExt
        ∧ normalizedExt ul ['a', '.', 'j', 'p', 'g'] = normalizedExt ul upperJpgToPng.FromExt)
    ∧ (∀ (ul : Char → Char) (w : World),
        jpegToPng.walkFn ul tagCodec (.file ['a', '.', 'j', 'p', 'e', 'g']) w = (none, w)
        ∧ jpegToPng.walkFn ul tagCodec (.file ['a', '.', 'j', 'p', 'g']) w = (none, w)
        ∧ upperJpgToPng.walkFn ul tagCodec (.file ['a', '.', 'j', 'p', 'e', 'g']) w = (none, w)
        ∧ upperJpgToPng.walkFn ul tagCodec (.file ['a', '.', 'j', 'p', 'g']) w = (none, w))
    ∧ (∀ (Image : Type) (ul : Char → Char) (cd : Codec Image) (p : Str) (w : World),
        jpegToPng.walkFn ul cd (.file p) w = (none, w)) := by
  refine ⟨fun _ _ => rfl, fun _ _ => rfl, fun _ => ⟨rfl, rfl, rfl, rfl⟩,
    fun _ _ => ⟨rfl, rfl, rfl, rfl⟩, ?_⟩
  intro Image ul cd p w
  apply walkFn_skip
  rw [normalizedExt_eq]
  unfold unify
  split_ifs with h
  · show ['j', 'p', 'g'] ≠ ['j', 'p', 'e', 'g']
    decide
  · exact fun e => h (Or.inl e)

/-- C3, at targets `PNG` and `Gif`: `New` accepts the target format, and
`convert` never calls an encoder: it returns the decode error or the
unknown-format error. -/
theorem uppercase_target_never_encodes :
    (∀ ul clean, New ul clean (fun _ => StatResult.dir) ['.'] ['j', 'p', 'g'] ['P', 'N', 'G'] =
        .ok jpgToUpperPng)
    ∧ (∀ ul clean, New ul clean (fun _ => StatResult.dir) ['.'] ['j', 'p', 'g'] ['G', 'i', 'f'] =
        .ok jpgToMixedGif)
    ∧ (∀ (Image : Type) (cd : Codec Image) (r : Bytes),
        (jpgToUpperPng.convert cd r).2 = none ∧
          ((jpgToUpperPng.convert cd r).1 = some .decode ∨
            (jpgToUpperPng.convert cd r).1 = some (.unknownFormat ['P', 'N', 'G'])))
    ∧ (∀ (Image : Type) (cd : Codec Image) (r : Bytes),
        (jpgToMixedGif.convert cd r).2 = none ∧
          ((jpgToMixedGif.convert cd r).1 = some .decode ∨
            (jpgToMixedGif.convert cd r).1 = some (.unknownFormat ['G', 'i', 'f'])))
    ∧ tagCodec.decode [1, 6] = some [6]
    ∧ jpgToUpperPng.convert tagCodec [1, 6] = (some (.unknownFormat ['P', 'N', 'G']), none)
    ∧ (jpgToUpperPng.walkFn (fun c => c) tagCodec (.file ['a', '.', 'j', 'p', 'g']) oneJpgWorld).1 =
        some (.unknownFormat ['P', 'N', 'G'])
    ∧ (jpgToUpperPng.walkFn (fun c => c) tagCodec (.file ['a', '.', 'j', 'p', 'g'])
        oneJpgWorld).2.files ['a', '.', 'P', 'N', 'G'] = some [] := by
  refine ⟨fun _ _ => rfl, fun _ _ => rfl, ?_, ?_, by decide, by decide, by decide, by decide⟩
  · intro Image cd r
    unfold Converter.convert
    cases cd.decode r with
    | none => exact ⟨rfl, Or.inl rfl⟩
    | some img => exact ⟨rfl, Or.inr rfl⟩
  · intro Image cd r
    unfold Converter.convert
    cases cd.decode r with
    | none => exact ⟨rfl, Or.inl rfl⟩
    | some img => exact ⟨rfl, Or.inr rfl⟩

/-- C4 as stated fails: for the text file `a.jpg` and the accepted converter
jpg to png, decoding fails, and the failing step leaves a file `a.png` that did
not exist before. -/
theorem decode_failure_leaves_output :
    New (fun c => c) (fun p => p) (fun _ => StatResult.dir) ['.'] ['j', 'p', 'g'] ['p', 'n', 'g'] =
        .ok jpgToPng
    ∧ tagCodec.decode (readAll textWorld ['a', '.', 'j', 'p', 'g']) = none
    ∧ (jpgToPng.walkFn (fun c => c) tagCodec (.file ['a', '.', 'j', 'p', 'g']) textWorld).1 =
        some .decode
    ∧ ¬ ∀ q, (contents (jpgToPng.walkFn (fun c => c) tagCodec (.file ['a', '.', 'j', 'p', 'g'])
          textWorld).2 q).isSome = (contents textWorld q).isSome := by
  refine ⟨rfl, by decide, by decide, fun h => ?_⟩
  exact absurd (h ['a', '.', 'p', 'n', 'g']) (by decide)

/-- C4, amended: when a file passes the source filter, is opened, the output
file is created, and decoding what the reader yields fails, the callback
returns the decode error in the state `os.Create` left: the output path, and
every path that names the same file, holds an empty file, nothing has been
written into it, and every path that names another file holds what it held
before. -/
theorem decode_failure_state {Image : Type} (ul : Char → Char) (cd : Codec Image)
    (c : Converter) (p : Str) (w w1 w2 : World) (hm : normalizedExt ul p = c.FromExt)
    (ho : osOpen w p = some w1) (hc : osCreate w1 (c.dest p) = some w2)
    (hd : cd.decode (readAll w2 p) = none) :
    c.walkFn ul cd (.file p) w = (some .decode, w2)
    ∧ (∀ q, w.resolve q = w.resolve (c.dest p) → contents w2 q = some [])
    ∧ (∀ q, w.resolve q ≠ w.resolve (c.dest p) → contents w2 q = contents w q)
    ∧ w2.log = w.log ++ [.opened p, .created (c.dest p)] := by
  have e1 := osOpen_some ho
  have e2 := osCreate_some hc
  have hconv : c.convert cd (readAll w2 p) = (some .decode, none) := by
    simp [Converter.convert, hd]
  refine ⟨?_, ?_, ?_, ?_⟩
  · rw [walkFn_convert ul cd c p w w1 w2 hm ho hc, hconv]; rfl
  · intro q hq; subst e2; subst e1; simp [contents, hq]
  · intro q hq; subst e2; subst e1; simp [contents, hq]
  · subst e2; subst e1; simp

/-- Worked instance for C4 as amended, for png to gif in a directory where
`a.gif` is a link to `a.png`: creating the output empties the input, decoding
it fails, and both paths hold the empty file. -/
theorem decode_failure_state_witness :
    (pngToGif.walkFn (fun c => c) tagCodec (.file ['a', '.', 'p', 'n', 'g']) linkedWorld).1 =
        some .decode
    ∧ contents linkedWorld ['a', '.', 'p', 'n', 'g'] = some [2, 7]
    ∧ contents (pngToGif.walkFn (fun c => c) tagCodec (.file ['a', '.', 'p', 'n', 'g'])
        linkedWorld).2 ['a', '.', 'p', 'n', 'g'] = some []
    ∧ contents (pngToGif.walkFn (fun c => c) tagCodec (.file ['a', '.', 'p', 'n', 'g'])
        linkedWorld).2 ['a', '.', 'g', 'i', 'f'] = some [] := by
  have h := decode_failure_state (fun c => c) tagCodec pngToGif ['a', '.', 'p', 'n', 'g']
    linkedWorld
    { linkedWorld with log := [.opened ['a', '.', 'p', 'n', 'g']] }
    { linkedWorld with
      files := fun k => if k = linkedWorld.resolve (pngToGif.dest ['a', '.', 'p', 'n', 'g'])
        then some [] else linkedWorld.files k
      log := [.opened ['a', '.', 'p', 'n', 'g'],
        .created (pngToGif.dest ['a', '.', 'p', 'n', 'g'])] }
    rfl rfl rfl (by decide)
  rw [h.1]
  exact ⟨rfl, by decide, h.2.1 _ (by decide), h.2.1 _ (by decide)⟩

/-- C5 as stated fails: with the accepted converter png to gif and a directory
holding `a.gif` and `a.png`, the walk succeeds, `a.gif` does not have the
canonical extension of the source format, and its contents change. -/
theorem existing_output_overwritten :
    New (fun c => c) (fun p => p) (fun _ => StatResult.dir) ['.'] ['p', 'n', 'g'] ['g', 'i', 'f'] =
        .ok pngToGif
    ∧ normalizedExt (fun c => c) ['a', '.', 'g', 'i', 'f'] ≠
        normalizedExt (fun c => c) pngToGif.FromExt
    ∧ (pngToGif.Walk (fun c => c) tagCodec
        (fun _ => [.dir ['.'], .file ['a', '.', 'g', 'i', 'f'], .file ['a', '.', 'p', 'n', 'g']])
        pairWorld).1 = none
    ∧ contents pairWorld ['a', '.', 'g', 'i', 'f'] = some [3, 9]
    ∧ contents (pngToGif.Walk (fun c => c) tagCodec
        (fun _ => [.dir ['.'], .file ['a', '.', 'g', 'i', 'f'], .file ['a', '.', 'p', 'n', 'g']])
        pairWorld).2 ['a', '.', 'g', 'i', 'f'] = some [3, 7] := by
  refine ⟨rfl, by decide, by decide, by decide, by decide⟩

/-- C5, amended: a walk, whether it succeeds or not, leaves every path that
does not name the same file as the output path of a file passing the source
filter with the contents it had before. -/
theorem Walk_frame {Image : Type} (ul : Char → Char) (cd : Codec Image)
    (traverse : Str → List Entry) (c : Converter) (w : World) (q : Str)
    (hq : ∀ p ∈ matching ul c (traverse c.Directory), w.resolve q ≠ w.resolve (c.dest p)) :
    contents (c.Walk ul cd traverse w).2 q = contents w q :=
  (walkEntries_effect ul cd c (traverse c.Directory) w).2.2.2 q hq

/-- Worked instance for C5 as amended, for png to gif in a directory holding
`a.gif` and `a.png`: the input `a.png` keeps its contents. -/
theorem Walk_frame_witness :
    contents (pngToGif.Walk (fun c => c) tagCodec
        (fun _ => [.dir ['.'], .file ['a', '.', 'g', 'i', 'f'], .file ['a', '.', 'p', 'n', 'g']])
        pairWorld).2 ['a', '.', 'p', 'n', 'g'] = some [2, 7] :=
  (Walk_frame (fun c => c) tagCodec
    (fun _ => [.dir ['.'], .file ['a', '.', 'g', 'i', 'f'], .file ['a', '.', 'p', 'n', 'g']])
    pngToGif pairWorld ['a', '.', 'p', 'n', 'g'] (by decide)).trans (by decide)

/-- C6 as stated fails: under the accepted converter jpg to png, `a.jpeg`,
`a.jpg` and `a.JPG` are distinct paths that pass the source filter and have the
same output path, and a successful walk over `a.jpeg` and `a.jpg` creates the
one path `a.png` twice. -/
theorem distinct_inputs_share_output :
    New (fun c => c) (fun p => p) (fun _ => StatResult.dir) ['.'] ['j', 'p', 'g'] ['p', 'n', 'g'] =
        .ok jpgToPng
    ∧ matching (fun c => c) jpgToPng
        [.file ['a', '.', 'j', 'p', 'e', 'g'], .file ['a', '.', 'j', 'p', 'g'],
          .file ['a', '.', 'J', 'P', 'G']] =
        [['a', '.', 'j', 'p', 'e', 'g'], ['a', '.', 'j', 'p', 'g'], ['a', '.', 'J', 'P', 'G']]
    ∧ jpgToPng.dest ['a', '.', 'j', 'p', 'e', 'g'] = jpgToPng.dest ['a', '.', 'j', 'p', 'g']
    ∧ jpgToPng.dest ['a', '.', 'J', 'P', 'G'] = jpgToPng.dest ['a', '.', 'j', 'p', 'g']
    ∧ (jpgToPng.Walk (fun c => c) tagCodec
        (fun _ => [.dir ['.'], .file ['a', '.', 'j', 'p', 'e', 'g'], .file ['a', '.', 'j', 'p', 'g']])
        twinWorld).1 = none
    ∧ createdPaths (jpgToPng.Walk (fun c => c) tagCodec
        (fun _ => [.dir ['.'], .file ['a', '.', 'j', 'p', 'e', 'g'], .file ['a', '.', 'j', 'p', 'g']])
        twinWorld).2.log = [['a', '.', 'p', 'n', 'g'], ['a', '.', 'p', 'n', 'g']] := by
  refine ⟨rfl, by decide, by decide, by decide, by decide, by decide⟩

theorem dest_eq_iff (c : Converter) (p q : Str) :
    c.dest p = c.dest q ↔ TrimSuffix p (Ext p) = TrimSuffix q (Ext q) := by
  rw [dest_eq, dest_eq]
  exact List.append_left_inj _

theorem map_dest (c : Converter) (ps : List Str) :
    ps.map c.dest = (ps.map fun p => TrimSuffix p (Ext p)).map (fun s => s ++ '.' :: c.ToExt) := by
  rw [List.map_map]
  exact List.map_congr_left fun p _ => dest_eq c p

/-- C6, amended: after a successful walk the output path of each file that
passes the source filter holds a file, and the paths created are exactly these
output paths, in traversal order; two paths have the same output path exactly
when they agree up to the final extension; so the number of distinct output
paths is the number of distinct paths-without-final-extension among the N files
that pass the filter, and it is N when no two of them agree up to the final
extension. -/
theorem Walk_outputs {Image : Type} (ul : Char → Char) (cd : Codec Image)
    (traverse : Str → List Entry) (c : Converter) (w w1 : World)
    (h : c.Walk ul cd traverse w = (none, w1)) :
    (∀ p ∈ matching ul c (traverse c.Directory), contents w1 (c.dest p) ≠ none)
    ∧ createdPaths w1.log =
        createdPaths w.log ++ (matching ul c (traverse c.Directory)).map c.dest
    ∧ (∀ p q, c.dest p = c.dest q ↔ TrimSuffix p (Ext p) = TrimSuffix q (Ext q))
    ∧ ((matching ul c (traverse c.Directory)).map c.dest).dedup.length =
        ((matching ul c (traverse c.Directory)).map fun p => TrimSuffix p (Ext p)).dedup.length
    ∧ (((matching ul c (traverse c.Directory)).map fun p => TrimSuffix p (Ext p)).Nodup →
        ((matching ul c (traverse c.Directory)).map c.dest).Nodup ∧
          ((matching ul c (traverse c.Directory)).map c.dest).dedup.length =
            (matching ul c (traverse c.Directory)).length) := by
  have hinj : Function.Injective (fun s : Str => s ++ '.' :: c.ToExt) :=
    fun a b hab => (List.append_left_inj _).1 hab
  have hcount : ((matching ul c (traverse c.Directory)).map c.dest).dedup.length =
      ((matching ul c (traverse c.Directory)).map fun p => TrimSuffix p (Ext p)).dedup.length := by
    rw [map_dest, List.dedup_map_of_injective hinj, List.length_map]
  refine ⟨fun p hp => ?_, walkEntries_created ul cd c _ w w1 h, dest_eq_iff c, hcount,
    fun hnd => ⟨?_, ?_⟩⟩
  · obtain ⟨hmem, hm⟩ := (mem_matching ul c _ p).1 hp
    obtain ⟨pre, post, hsplit⟩ := List.append_of_mem hmem
    unfold Converter.Walk at h
    rw [hsplit] at h
    obtain ⟨-, -, -, -, -, hex⟩ := walkEntries_transcodes ul cd c pre p post w w1 h hm
    exact hex
  · rw [map_dest]; exact hnd.map hinj
  · rw [hcount, hnd.dedup, List.length_map]

/-- Worked instance for C6 as amended, for jpg to png over a directory holding
`a.jpg` and `b.jpg`: two files pass the filter, no two agree up to the
extension, the two output paths are distinct, and `b.png` holds a file. -/
theorem Walk_outputs_witness :
    (matching (fun c => c) jpgToPng
        [.dir ['.'], .file ['a', '.', 'j', 'p', 'g'], .file ['b', '.', 'j', 'p', 'g']]).length = 2
    ∧ ((matching (fun c => c) jpgToPng
        [.dir ['.'], .file ['a', '.', 'j', 'p', 'g'], .file ['b', '.', 'j', 'p', 'g']]).map
          jpgToPng.dest).dedup.length = 2
    ∧ contents (jpgToPng.walkEntries (fun c => c) tagCodec
        [.dir ['.'], .file ['a', '.', 'j', 'p', 'g'], .file ['b', '.', 'j', 'p', 'g']]
        twoJpgWorld).2 ['b', '.', 'p', 'n', 'g'] ≠ none := by
  have h := Walk_outputs (fun c => c) tagCodec
    (fun _ => [.dir ['.'], .file ['a', '.', 'j', 'p', 'g'], .file ['b', '.', 'j', 'p', 'g']])
    jpgToPng twoJpgWorld
    (jpgToPng.walkEntries (fun c => c) tagCodec
      [.dir ['.'], .file ['a', '.', 'j', 'p', 'g'], .file ['b', '.', 'j', 'p', 'g']]
      twoJpgWorld).2
    rfl
  exact ⟨by decide, (h.2.2.2.2 (by decide)).2.trans (by decide),
    h.1 ['b', '.', 'j', 'p', 'g'] (by decide)⟩

/-- C8: if the calls before some call all return nil and that call returns an
error, `Walk` returns that error in the state the failing call leaves, whatever
follows it in the traversal; every earlier file passing the source filter has
been transcoded (opened, its output created, its contents decoded and encoded
by the encoder of the target format into the output file), and its output path
holds a file in the final state; a failure to open, to create or to convert a
file passing the filter makes the call return an error; and a traversal with no
error and no file passing the filter returns nil and leaves the state as it
was. -/
theorem Walk_aborts_on_first_error {Image : Type} (ul : Char → Char) (cd : Codec Image)
    (traverse : Str → List Entry) (c : Converter) (w : World) :
    (∀ pre e post w1 err w2, traverse c.Directory = pre ++ e :: post →
        c.walkEntries ul cd pre w = (none, w1) → c.walkFn ul cd e w1 = (some err, w2) →
        c.Walk ul cd traverse w = (some err, w2)
        ∧ (∀ pre1 p pre2, pre = pre1 ++ .file p :: pre2 → normalizedExt ul p = c.FromExt →
            ∃ wa wb, c.walkEntries ul cd pre1 w = (none, wa) ∧ Transcoded cd c p wa wb ∧
              c.walkEntries ul cd pre2 wb = (none, w1) ∧ contents w2 (c.dest p) ≠ none))
    ∧ (∀ p w0, normalizedExt ul p = c.FromExt →
        (osOpen w0 p = none → c.walkFn ul cd (.file p) w0 = (some (.openFailed p), w0))
        ∧ (∀ w1, osOpen w0 p = some w1 → osCreate w1 (c.dest p) = none →
            c.walkFn ul cd (.file p) w0 = (some (.createFailed (c.dest p)), w1))
        ∧ (∀ w1 w2 err, osOpen w0 p = some w1 → osCreate w1 (c.dest p) = some w2 →
            (c.convert cd (readAll w2 p)).1 = some err →
            c.walkFn ul cd (.file p) w0 =
              (some err, writeAll w2 (c.dest p) (c.convert cd (readAll w2 p)).2)))
    ∧ (matching ul c (traverse c.Directory) = [] →
        (∀ p, Entry.failed p ∉ traverse c.Directory) →
        c.Walk ul cd traverse w = (none, w)) := by
  refine ⟨?_, ?_, ?_⟩
  · intro pre e post w1 err w2 ht hpre he
    refine ⟨?_, ?_⟩
    · unfold Converter.Walk
      rw [ht]
      exact walkEntries_abort ul cd c pre e post w w1 w2 err hpre he
    · intro pre1 p pre2 hsplit hm
      rw [hsplit] at hpre
      obtain ⟨wa, wb, ha, ht1, hpost, hex⟩ :=
        walkEntries_transcodes ul cd c pre1 p pre2 w w1 hpre hm
      refine ⟨wa, wb, ha, ht1, hpost, ?_⟩
      have := (walkFn_effect ul cd c e w1).2.2.1 (c.dest p) hex
      rwa [he] at this
  · intro p w0 hm
    refine ⟨walkFn_open_fails ul cd c p w0 hm, fun w1 => walkFn_create_fails ul cd c p w0 w1 hm,
      fun w1 w2 err ho hc he => ?_⟩
    rw [walkFn_convert ul cd c p w0 w1 w2 hm ho hc, he]
  · intro hnone hnofail
    unfold Converter.Walk
    generalize traverse c.Directory = es at hnone hnofail
    induction es with
    | nil => rfl
    | cons x xs ih =>
      rw [matching_cons] at hnone
      have hx : c.walkFn ul cd x w = (none, w) := by
        cases x with
        | failed p => exact absurd (List.mem_cons_self _ _) (hnofail p)
        | dir p => rfl
        | file p =>
          apply walkFn_skip
          intro hm
          have : matching ul c [Entry.file p] = [p] := by simp [matching, hm]
          rw [this] at hnone
          simp at hnone
      rw [walkEntries_cons_ok ul cd c x xs w w hx]
      exact ih (List.append_eq_nil.1 hnone).2 fun p hp => hnofail p (List.mem_cons_of_mem _ hp)

/-- Worked instance for C8, for jpg to png over a directory holding the JPEG
`a.jpg`, the text file `b.jpg` and the JPEG `c.jpg`, visited in that order: the
walk returns the decode error of `b.jpg`; `a.jpg` has been transcoded and
`a.png` holds its PNG encoding; `c.jpg` has not been touched and there is no
`c.png`. -/
theorem Walk_aborts_on_first_error_witness :
    (jpgToPng.Walk (fun c => c) tagCodec
        (fun _ => [.dir ['.'], .file ['a', '.', 'j', 'p', 'g'], .file ['b', '.', 'j', 'p', 'g'],
          .file ['c', '.', 'j', 'p', 'g']]) mixedWorld).1 = some .decode
    ∧ contents (jpgToPng.Walk (fun c => c) tagCodec
        (fun _ => [.dir ['.'], .file ['a', '.', 'j', 'p', 'g'], .file ['b', '.', 'j', 'p', 'g'],
          .file ['c', '.', 'j', 'p', 'g']]) mixedWorld).2 ['c', '.', 'p', 'n', 'g'] = none
    ∧ contents (jpgToPng.Walk (fun c => c) tagCodec
        (fun _ => [.dir ['.'], .file ['a', '.', 'j', 'p', 'g'], .file ['b', '.', 'j', 'p', 'g'],
          .file ['c', '.', 'j', 'p', 'g']]) mixedWorld).2 ['a', '.', 'p', 'n', 'g'] = some [2, 6]
    ∧ (∃ wa wb, jpgToPng.walkEntries (fun c => c) tagCodec [.dir ['.']] mixedWorld = (none, wa) ∧
        Transcoded tagCodec jpgToPng ['a', '.', 'j', 'p', 'g'] wa wb ∧
        contents wb ['a', '.', 'p', 'n', 'g'] = some [2, 6]) := by
  have h := (Walk_aborts_on_first_error (fun c => c) tagCodec
    (fun _ => [.dir ['.'], .file ['a', '.', 'j', 'p', 'g'], .file ['b', '.', 'j', 'p', 'g'],
      .file ['c', '.', 'j', 'p', 'g']]) jpgToPng mixedWorld).1
    [.dir ['.'], .file ['a', '.', 'j', 'p', 'g']] (.file ['b', '.', 'j', 'p', 'g'])
    [.file ['c', '.', 'j', 'p', 'g']]
    (jpgToPng.walkEntries (fun c => c) tagCodec [.dir ['.'], .file ['a', '.', 'j', 'p', 'g']]
      mixedWorld).2
    .decode
    (jpgToPng.walkFn (fun c => c) tagCodec (.file ['b', '.', 'j', 'p', 'g'])
      (jpgToPng.walkEntries (fun c => c) tagCodec [.dir ['.'], .file ['a', '.', 'j', 'p', 'g']]
        mixedWorld).2).2
    rfl rfl rfl
  obtain ⟨wa, wb, ha, ht, hpost, -⟩ := h.2 [.dir ['.']] ['a', '.', 'j', 'p', 'g'] [] rfl rfl
  refine ⟨by rw [h.1], by rw [h.1]; decide, by rw [h.1]; decide, wa, wb, ha, ht, ?_⟩
  simp only [Converter.walkEntries, Prod.mk.injEq, true_and] at hpost
  rw [hpost]
  decide

end Imgconv
